import Mathlib

/-!
Verification of the poolboyz DLMM analytics core against its specification.

The definitions below are a shallow embedding of the TypeScript source:
byte buffers become `List Nat` (each element a byte value 0–255), JavaScript
BigInt arithmetic becomes `Nat`/`Int` arithmetic, JavaScript `number` values
produced by `Math.pow` are modelled exactly over `ℚ`, JS `Map` objects become
insertion-ordered association lists, and the HTTP cache coordinator becomes a
pure function of an environment describing the volatile store, durable store
and recompute outcome.
-/

namespace Poolboyz

/-! ### Byte-level primitives (DataView / Buffer reads) -/

/-- Byte at index `i` of a buffer; out-of-range reads default to 0. -/
def byteAt (buf : List Nat) (i : Nat) : Nat := buf.getD i 0

/-- Little-endian unsigned integer of `n` bytes starting at `off`. -/
def readLE (buf : List Nat) : Nat → Nat → Nat
  | _, 0 => 0
  | off, n + 1 => byteAt buf off + 256 * readLE buf (off + 1) n

/-- The `n` raw bytes starting at `off` (e.g. a 32-byte identifier). -/
def readBytes (buf : List Nat) (off n : Nat) : List Nat :=
  (List.range n).map (fun i => byteAt buf (off + i))

/-- Reinterpret an unsigned 16-bit value as a signed `Int` (readInt16LE). -/
def asInt16 (u : Nat) : Int := if u < 2 ^ 15 then (u : Int) else (u : Int) - 2 ^ 16

/-- Reinterpret an unsigned 32-bit value as a signed `Int` (getInt32). -/
def asInt32 (u : Nat) : Int := if u < 2 ^ 31 then (u : Int) else (u : Int) - 2 ^ 32

/-- Reinterpret an unsigned 64-bit value as a signed `Int` (getBigInt64). -/
def asInt64 (u : Nat) : Int := if u < 2 ^ 63 then (u : Int) else (u : Int) - 2 ^ 64

/-- One 128-bit share slot: two consecutive little-endian 64-bit words,
low word first, combined as `(high << 64) | low` exactly as the source does. -/
def readShare (buf : List Nat) (off : Nat) : Nat :=
  (readLE buf (off + 8) 8) <<< 64 ||| readLE buf off 8

/-! ### Layout decoder: pool metadata (`DLMMAnalyzer.decodeLBPairAccount`) -/

structure LBPairAccount where
  tokenX : List Nat
  tokenY : List Nat
  binStep : Int
deriving DecidableEq

/-- Embedding of `decodeLBPairAccount`: walks forward from offset 8
(after the discriminator), skipping the 64-byte parameters struct,
then bumpSeed (1), binStepSeed (2), pairType (1), activeId (4),
reads binStep as a signed little-endian 16-bit integer, skips
status (1), requireBaseFactorSeed (1), baseFactorSeed (2),
activationType (1), creatorPoolOnOffControl (1), then reads the two
32-byte token mints. -/
def decodeLBPairAccount (buf : List Nat) : LBPairAccount :=
  let offset := 8
  let offset := offset + 64
  let offset := offset + 1
  let offset := offset + 2
  let offset := offset + 1
  let offset := offset + 4
  let binStep := asInt16 (readLE buf offset 2)
  let offset := offset + 2
  let offset := offset + 1
  let offset := offset + 1
  let offset := offset + 2
  let offset := offset + 1
  let offset := offset + 1
  let tokenX := readBytes buf offset 32
  let offset := offset + 32
  let tokenY := readBytes buf offset 32
  { tokenX := tokenX, tokenY := tokenY, binStep := binStep }

/-- Modelled from the spec, for claim C3 only: the layout the spec describes,
with binStep located immediately after an 8-byte tag, a 64-byte params block
and 9 bytes of flags/ids (byte offset 81), followed by 5 bytes of flags and
the two consecutive 32-byte token identifiers. -/
def decodeLBPairAccountSpecC3 (buf : List Nat) : LBPairAccount :=
  let binStepOffset := 8 + 64 + 9
  let tokenXOffset := binStepOffset + 2 + 5
  { tokenX := readBytes buf tokenXOffset 32
    tokenY := readBytes buf (tokenXOffset + 32) 32
    binStep := asInt16 (readLE buf binStepOffset 2) }

/-! ### Layout decoder: position (`DLMMAnalyzer.decodePosition`) -/

structure DecodedPosition where
  pubkey : String
  lbPair : List Nat
  owner : List Nat
  liquidityShares : List Nat
  lowerBinId : Int
  upperBinId : Int
  lastUpdatedAt : Int
deriving DecidableEq

/-- The share-reading loop: up to `n` 128-bit slots starting at `off`,
stopping early when a slot would overlap the 200-byte trailer
(`offset + 16 <= accountData.length - 200`). -/
def readShares (buf : List Nat) : Nat → Nat → List Nat
  | _, 0 => []
  | off, n + 1 =>
    if off + 16 ≤ buf.length - 200 then
      readShare buf off :: readShares buf (off + 16) n
    else []

/-- Embedding of `decodePosition`: header fields forward from offset 8,
share array bounded by `min(70, ⌊(length − 72 − 200) / 16⌋)`, and the
trailer scalars addressed backward from the end of the buffer
(`lastUpdatedAt` at `length − 192`, `upperBinId` at `length − 200`,
`lowerBinId` at `length − 204`). -/
def decodePosition (buf : List Nat) (pubkey : String) : DecodedPosition :=
  let maxShares := min 70 ((buf.length - 72 - 200) / 16)
  { pubkey := pubkey
    lbPair := readBytes buf 8 32
    owner := readBytes buf 40 32
    liquidityShares := readShares buf 72 maxShares
    lowerBinId := asInt32 (readLE buf (buf.length - 204) 4)
    upperBinId := asInt32 (readLE buf (buf.length - 200) 4)
    lastUpdatedAt := asInt64 (readLE buf (buf.length - 192) 8) }

/-! ### Price model and per-position liquidity distribution
(`DLMMAnalyzer.calculatePositionPriceRange`) -/

/-- Repeated multiplication, the natural-number core of `Math.pow`. -/
def qpowNat (q : ℚ) : Nat → ℚ
  | 0 => 1
  | n + 1 => q * qpowNat q n

/-- `Math.pow` at an integer exponent, modelled exactly over `ℚ`. -/
def qpow (q : ℚ) : Int → ℚ
  | Int.ofNat n => qpowNat q n
  | Int.negSucc n => (qpowNat q (n + 1))⁻¹

/-- Bin price: `(1 + binStep/10000)^binId / 10^(decimalsY − decimalsX)`.
The source computes this with `Math.pow` on JS numbers; it is modelled here
exactly over `ℚ`. -/
def priceQ (binStep : ℚ) (decimalsX decimalsY : Int) (binId : Int) : ℚ :=
  qpow (1 + binStep / 10000) binId / qpow 10 (decimalsY - decimalsX)

structure DistEntry where
  binId : Int
  liquidity : Nat
  price : ℚ
  minPrice : ℚ
  maxPrice : ℚ
deriving DecidableEq

/-- The position fields `calculatePositionPriceRange` consumes. -/
structure PositionInput where
  lowerBinId : Int
  upperBinId : Int
  liquidityShares : List Nat
deriving DecidableEq

structure PositionWithRange where
  position : PositionInput
  liquidityDistribution : List DistEntry
  totalLiquidity : Nat
deriving DecidableEq

/-- Embedding of `calculatePositionPriceRange`: iterates bins
`i = 0 .. min(shares.length, upperBinId − lowerBinId + 1) − 1`, keeping only
bins with strictly positive share, each entry carrying the bin id
`lowerBinId + i`, its share, and the bin price / next-bin price. -/
def calculatePositionPriceRange (position : PositionInput) (binStep : Int)
    (decimalsX decimalsY : Int) : PositionWithRange :=
  let binRange : Int := position.upperBinId - position.lowerBinId + 1
  let maxBins : Nat := min position.liquidityShares.length binRange.toNat
  let liquidityDistribution := (List.range maxBins).filterMap (fun i =>
    let liquidity := position.liquidityShares.getD i 0
    if 0 < liquidity then
      let binId := position.lowerBinId + (i : Int)
      some { binId := binId
             liquidity := liquidity
             price := priceQ (binStep : ℚ) decimalsX decimalsY binId
             minPrice := priceQ (binStep : ℚ) decimalsX decimalsY binId
             maxPrice := priceQ (binStep : ℚ) decimalsX decimalsY (binId + 1) }
    else none)
  { position := position
    liquidityDistribution := liquidityDistribution
    totalLiquidity := (liquidityDistribution.map (fun d => d.liquidity)).sum }

/-! ### Aggregator (`DLMMAnalyzer.aggregateLiquidityForChart`)

JS `Map` objects are modelled as insertion-ordered association lists:
`set` updates an existing key in place, otherwise appends. -/

def mapGet {β : Type} (m : List (Int × β)) (k : Int) : Option β :=
  (m.find? (fun p => p.1 == k)).map (fun p => p.2)

def mapSet {β : Type} (m : List (Int × β)) (k : Int) (v : β) : List (Int × β) :=
  if m.any (fun p => p.1 == k) then
    m.map (fun p => if p.1 == k then (k, v) else p)
  else
    m ++ [(k, v)]

structure LiquidityData where
  binId : Int
  totalLiquidity : Nat
  price : ℚ
deriving DecidableEq

/-- One inner step of the aggregation loop: accumulate the entry's share into
`liquidityByBin` and record its `minPrice` in `priceByBin`. -/
def aggStep (maps : List (Int × Nat) × List (Int × ℚ)) (d : DistEntry) :
    List (Int × Nat) × List (Int × ℚ) :=
  (mapSet maps.1 d.binId ((mapGet maps.1 d.binId).getD 0 + d.liquidity),
   mapSet maps.2 d.binId d.minPrice)

/-- The two maps built by the nested aggregation loops. -/
def aggMaps (positionsWithRanges : List PositionWithRange) :
    List (Int × Nat) × List (Int × ℚ) :=
  positionsWithRanges.foldl
    (fun maps position => position.liquidityDistribution.foldl aggStep maps)
    ([], [])

/-- The ordering induced by the comparator `(a, b) => a.binId - b.binId`. -/
def binIdLe (a b : LiquidityData) : Prop := a.binId ≤ b.binId

instance : DecidableRel binIdLe :=
  fun a b => inferInstanceAs (Decidable (a.binId ≤ b.binId))

instance : IsTotal LiquidityData binIdLe :=
  ⟨fun a b => Int.le_total a.binId b.binId⟩

instance : IsTrans LiquidityData binIdLe :=
  ⟨fun _ _ _ h₁ h₂ => le_trans h₁ h₂⟩

/-- Embedding of `aggregateLiquidityForChart`: build the per-bin maps, emit
one `LiquidityData` per map entry (price looked up with default 0), and sort
by ascending bin id (any comparison sort realises the source's
`.sort((a, b) => a.binId - b.binId)`; bin ids in the map are distinct, so the
sorted list is unique). -/
def aggregateLiquidityForChart (positionsWithRanges : List PositionWithRange) :
    List LiquidityData :=
  let maps := aggMaps positionsWithRanges
  (maps.1.map (fun p =>
    { binId := p.1
      totalLiquidity := p.2
      price := (mapGet maps.2 p.1).getD 0 })).insertionSort binIdLe

/-! ### Statistics (`DLMMAnalyzer.analyzeLBPair`, stats block) -/

structure AnalysisStats where
  totalLiquidity : Nat
  activeBins : Nat
  totalBins : Nat
  priceMin : ℚ
  priceMax : ℚ
deriving DecidableEq

/-- The stats computed at the end of `analyzeLBPair`. `Math.min`/`Math.max`
over the spread price list are modelled by folding from the first element
(the source only reaches this point with a nonempty list). -/
def analyzeStats (liquidityData : List LiquidityData) : AnalysisStats :=
  let prices := liquidityData.map (fun d => d.price)
  { totalLiquidity := (liquidityData.map (fun d => d.totalLiquidity)).sum
    activeBins := (liquidityData.filter (fun d => 0 < d.totalLiquidity)).length
    totalBins := liquidityData.length
    priceMin := (prices.tail).foldl min (prices.headD 0)
    priceMax := (prices.tail).foldl max (prices.headD 0) }

/-- The position-processing part of `analyzeLBPair`: compute each position's
distribution and keep only positions with strictly positive total liquidity,
then aggregate. -/
def analyzePipeline (positions : List PositionInput) (binStep : Int)
    (decimalsX decimalsY : Int) : List LiquidityData :=
  aggregateLiquidityForChart
    (((positions.map
        (fun p => calculatePositionPriceRange p binStep decimalsX decimalsY)).filter
      (fun r => 0 < r.totalLiquidity)))

/-! ### Metadata resolver (`DLMMAnalyzer.getTokenMetadata`) -/

/-- The shape of a parsed account response: its owning program name and,
when present, the parsed mint info (its `decimals` field). -/
structure ParsedTokenData where
  program : String
  parsed : Option Nat
deriving DecidableEq

/-- Outcome of `getParsedAccountInfo`: either the fetch threw, or it returned
with possibly-missing `value.data`. -/
inductive MintAccountFetch where
  | threw (msg : String)
  | success (data : Option ParsedTokenData)
deriving DecidableEq

structure TokenMetadata where
  mint : String
  decimals : Nat
deriving DecidableEq

/-- Embedding of `getTokenMetadata`: any thrown error, missing account data,
non-spl-token program or missing parsed info yields the default
`decimals = 6`; only a parsed spl-token account yields its real decimals. -/
def getTokenMetadata (tokenMint : String) (fetch : MintAccountFetch) :
    TokenMetadata :=
  match fetch with
  | MintAccountFetch.threw _ => { mint := tokenMint, decimals := 6 }
  | MintAccountFetch.success none => { mint := tokenMint, decimals := 6 }
  | MintAccountFetch.success (some d) =>
    if d.program ≠ "spl-token" then { mint := tokenMint, decimals := 6 }
    else
      match d.parsed with
      | none => { mint := tokenMint, decimals := 6 }
      | some dec => { mint := tokenMint, decimals := dec }

/-! ### Cache coordinator (`src/app/api/analyze/route.ts`, `POST`) -/

/-- Update threshold in milliseconds (5 minutes). -/
def UPDATE_THRESHOLD : Nat := 5 * 60 * 1000

/-- The consistent storage format (`StoredAnalysisData`), generic in the
payload type. -/
structure StoredAnalysisData (α : Type) where
  lbPairAddress : String
  analysisResult : α
  lastUpdated : Nat
  createdAt : Nat
deriving DecidableEq

/-- Embedding of `createStoredData`: stamps both `lastUpdated` and
`createdAt` with the current time. -/
def createStoredData {α : Type} (lbPairAddress : String) (analysisResult : α)
    (now : Nat) : StoredAnalysisData α :=
  { lbPairAddress := lbPairAddress
    analysisResult := analysisResult
    lastUpdated := now
    createdAt := now }

/-- Embedding of `extractResponseData`: the payload spread together with the
top-level `lastUpdated` and the `_metadata` block. -/
structure ResponseData (α : Type) where
  analysisResult : α
  lastUpdated : Nat
  metaLbPairAddress : String
  metaLastUpdated : Nat
  metaCreatedAt : Nat
deriving DecidableEq

def extractResponseData {α : Type} (storedData : StoredAnalysisData α) :
    ResponseData α :=
  { analysisResult := storedData.analysisResult
    lastUpdated := storedData.lastUpdated
    metaLbPairAddress := storedData.lbPairAddress
    metaLastUpdated := storedData.lastUpdated
    metaCreatedAt := storedData.createdAt }

/-- The response produced by the route: a 200 JSON body with its `X-Cache`
header value, or a 500 with the surfaced error message. -/
inductive PostResponse (α : Type) where
  | ok (body : ResponseData α) (cacheHeader : String)
  | err (msg : String)
deriving DecidableEq

/-- The route's observable outcome: the response plus the entry written to
the volatile store (`redis.setex`) and the entry handed to the fire-and-forget
durable write (`saveAnalysisToPostgres`), when any. -/
structure PostOutcome (α : Type) where
  response : PostResponse α
  volatileWrite : Option (StoredAnalysisData α)
  durableWrite : Option (StoredAnalysisData α)
deriving DecidableEq

/-- The environment a single request runs against: the key, the current
volatile and durable entries for it, the outcome the recompute pipeline
would produce, and the current time. -/
structure AnalyzeEnv (α : Type) where
  lbPairAddress : String
  redisEntry : Option (StoredAnalysisData α)
  pgEntry : Option (StoredAnalysisData α)
  recompute : Except String α
  now : Nat

/-- Steps 3–5 of the route (`shouldPerformAnalysis` branch) together with the
catch-block fallback: on success build the stored data, fire the durable
write, write the volatile store and answer with the pre-recompute status; on
failure read the durable store once, regardless of freshness, answering
`DB-FALLBACK` when an entry exists and surfacing the error otherwise. -/
def recomputePath {α : Type} (env : AnalyzeEnv α) (cacheStatus : String) :
    PostOutcome α :=
  match env.recompute with
  | Except.ok analysisResult =>
    let storedData := createStoredData env.lbPairAddress analysisResult env.now
    { response := PostResponse.ok (extractResponseData storedData) cacheStatus
      volatileWrite := some storedData
      durableWrite := some storedData }
  | Except.error e =>
    match env.pgEntry with
    | some storedData =>
      { response := PostResponse.ok (extractResponseData storedData) "DB-FALLBACK"
        volatileWrite := none
        durableWrite := none }
    | none =>
      { response := PostResponse.err e
        volatileWrite := none
        durableWrite := none }

/-- Embedding of the analyze route's `POST` handler: volatile store first
(`HIT` when fresh, `REFRESH` recompute when stale), then the durable store
(`DB-HIT` with volatile refresh when fresh, `DB-REFRESH` recompute when
stale), then a `MISS` recompute; failures fall back through
`recomputePath`. -/
def POST {α : Type} (env : AnalyzeEnv α) : PostOutcome α :=
  match env.redisEntry with
  | some storedData =>
    if storedData.lastUpdated ≠ 0 ∧
        env.now - storedData.lastUpdated < UPDATE_THRESHOLD then
      { response := PostResponse.ok (extractResponseData storedData) "HIT"
        volatileWrite := none
        durableWrite := none }
    else
      recomputePath env "REFRESH"
  | none =>
    match env.pgEntry with
    | some storedData =>
      if env.now - storedData.lastUpdated < UPDATE_THRESHOLD then
        { response := PostResponse.ok (extractResponseData storedData) "DB-HIT"
          volatileWrite := some storedData
          durableWrite := none }
      else
        recomputePath env "DB-REFRESH"
    | none =>
      recomputePath env "MISS"

/-! ### Supporting lemmas -/

/-- Each byte read is below 256 when the buffer holds genuine bytes
(out-of-range reads default to 0). -/
theorem byteAt_lt {buf : List Nat} (h : ∀ b ∈ buf, b < 256) (i : Nat) :
    byteAt buf i < 256 := by
  unfold byteAt
  rw [List.getD_eq_getElem?_getD]
  cases hg : buf[i]? with
  | none => simp
  | some b => simpa using h b (List.getElem?_mem hg)

/-- A little-endian read of `n` bytes is below `256 ^ n`. -/
theorem readLE_lt {buf : List Nat} (h : ∀ b ∈ buf, b < 256) :
    ∀ (n off : Nat), readLE buf off n < 256 ^ n := by
  intro n
  induction n with
  | zero => intro off; simp [readLE]
  | succ n ih =>
    intro off
    have hb := byteAt_lt h off
    have hr := ih (off + 1)
    have h256 : 256 * (readLE buf (off + 1) n + 1) ≤ 256 * 256 ^ n :=
      Nat.mul_le_mul_left 256 hr
    calc byteAt buf off + 256 * readLE buf (off + 1) n
        < 256 + 256 * readLE buf (off + 1) n := by omega
      _ = 256 * (readLE buf (off + 1) n + 1) := by ring
      _ ≤ 256 * 256 ^ n := h256
      _ = 256 ^ (n + 1) := by ring
  -- `readLE buf off (n+1)` unfolds to the calc`s left-hand side

/-- The share loop yields at most `n` elements. -/
theorem length_readShares (buf : List Nat) :
    ∀ (n off : Nat), (readShares buf off n).length ≤ n := by
  intro n
  induction n with
  | zero => intro off; simp [readShares]
  | succ n ih =>
    intro off
    rw [readShares]
    split
    · simpa using ih (off + 16)
    · simp

/-- The structural power agrees with the monoid power. -/
theorem qpowNat_eq_pow (q : ℚ) : ∀ n : Nat, qpowNat q n = q ^ n := by
  intro n
  induction n with
  | zero => simp [qpowNat]
  | succ n ih => rw [qpowNat, ih, pow_succ, mul_comm]

/-- The structural integer power agrees with `zpow`. -/
theorem qpow_eq_zpow (q : ℚ) (b : Int) : qpow q b = q ^ b := by
  cases b with
  | ofNat n => rw [qpow, qpowNat_eq_pow, Int.ofNat_eq_coe, zpow_natCast]
  | negSucc n => rw [qpow, qpowNat_eq_pow, zpow_negSucc]

/-! ### C1 -/

def entryC1 : StoredAnalysisData Nat :=
  { lbPairAddress := "pool", analysisResult := 7, lastUpdated := 20, createdAt := 10 }

def envC1 : AnalyzeEnv Nat :=
  { lbPairAddress := "pool", redisEntry := some entryC1, pgEntry := none,
    recompute := Except.ok 42, now := 1000000 }

/-- Unfolding of `POST` when the volatile store holds an entry. -/
theorem POST_redis_some {α : Type} (env : AnalyzeEnv α)
    (stored : StoredAnalysisData α) (h : env.redisEntry = some stored) :
    POST env =
      if stored.lastUpdated ≠ 0 ∧
          env.now - stored.lastUpdated < UPDATE_THRESHOLD then
        { response := PostResponse.ok (extractResponseData stored) "HIT"
          volatileWrite := none
          durableWrite := none }
      else recomputePath env "REFRESH" := by
  unfold POST
  rw [h]

/-- Unfolding of `POST` when only the durable store holds an entry. -/
theorem POST_pg_some {α : Type} (env : AnalyzeEnv α)
    (stored : StoredAnalysisData α) (h₁ : env.redisEntry = none)
    (h₂ : env.pgEntry = some stored) :
    POST env =
      if env.now - stored.lastUpdated < UPDATE_THRESHOLD then
        { response := PostResponse.ok (extractResponseData stored) "DB-HIT"
          volatileWrite := some stored
          durableWrite := none }
      else recomputePath env "DB-REFRESH" := by
  unfold POST
  rw [h₁, h₂]

/-- Unfolding of `POST` when neither store holds an entry. -/
theorem POST_miss {α : Type} (env : AnalyzeEnv α) (h₁ : env.redisEntry = none)
    (h₂ : env.pgEntry = none) :
    POST env = recomputePath env "MISS" := by
  unfold POST
  rw [h₁, h₂]

set_option maxRecDepth 10000 in
/-- C1, counterexample: a stale volatile entry with `createdAt = 10` exists
for the key, the recompute succeeds at `now = 1000000`, and the newly written
entry carries `createdAt = 1000000`, not the original 10: `createdAt` is not
preserved across recomputes. -/
theorem c1_counterexample :
    (POST envC1).response =
        PostResponse.ok (extractResponseData (createStoredData "pool" 42 1000000))
          "REFRESH" ∧
      entryC1.createdAt = 10 ∧
      (POST envC1).volatileWrite.map (fun d => d.createdAt) = some 1000000 ∧
      (1000000 : Nat) ≠ 10 :=
  ⟨rfl, rfl, rfl, by decide⟩

/-- Any entry handed to the durable write was just built by
`createStoredData`, so both stamps equal `now`. -/
theorem recomputePath_write_stamps {α : Type} (env : AnalyzeEnv α) (s : String)
    (d : StoredAnalysisData α)
    (h : (recomputePath env s).durableWrite = some d) :
    d.lastUpdated = env.now ∧ d.createdAt = env.now := by
  unfold recomputePath at h
  cases hr : env.recompute with
  | ok a =>
    rw [hr] at h
    simp only [createStoredData] at h
    cases h
    exact ⟨rfl, rfl⟩
  | error e =>
    rw [hr] at h
    cases hp : env.pgEntry with
    | some p => rw [hp] at h; exact Option.noConfusion h
    | none => rw [hp] at h; exact Option.noConfusion h

/-- C1, amended: every entry the coordinator writes on a recompute (the entry
handed to the fire-and-forget durable write, which is also the one written to
the volatile store) stamps both `lastUpdated = now` and `createdAt = now`;
the original `createdAt` of a pre-existing entry is not preserved. -/
theorem c1_recompute_stamps_now {α : Type} (env : AnalyzeEnv α)
    (d : StoredAnalysisData α)
    (h : (POST env).durableWrite = some d) :
    d.lastUpdated = env.now ∧ d.createdAt = env.now := by
  cases hr : env.redisEntry with
  | some stored =>
    rw [POST_redis_some env stored hr] at h
    by_cases hc : stored.lastUpdated ≠ 0 ∧
        env.now - stored.lastUpdated < UPDATE_THRESHOLD
    · rw [if_pos hc] at h
      exact Option.noConfusion h
    · rw [if_neg hc] at h
      exact recomputePath_write_stamps env "REFRESH" d h
  | none =>
    cases hp : env.pgEntry with
    | some stored =>
      rw [POST_pg_some env stored hr hp] at h
      by_cases hc : env.now - stored.lastUpdated < UPDATE_THRESHOLD
      · rw [if_pos hc] at h
        exact Option.noConfusion h
      · rw [if_neg hc] at h
        exact recomputePath_write_stamps env "DB-REFRESH" d h
    | none =>
      rw [POST_miss env hr hp] at h
      exact recomputePath_write_stamps env "MISS" d h

/-- C1, witness: the amended theorem applied to the concrete environment of
the counterexample. -/
theorem c1_witness :
    (POST envC1).durableWrite = some (createStoredData "pool" 42 1000000) ∧
      ((createStoredData "pool" (42 : Nat) 1000000).lastUpdated = envC1.now ∧
        (createStoredData "pool" (42 : Nat) 1000000).createdAt = envC1.now) :=
  ⟨rfl, c1_recompute_stamps_now envC1 (createStoredData "pool" 42 1000000) rfl⟩

/-! ### C4 -/

/-- C4: whenever a recompute is actually performed (no fresh volatile hit, no
fresh durable hit) and the pipeline throws, the coordinator answers with the
durable entry tagged DB-FALLBACK when one exists — with no freshness
condition on it — and surfaces the recompute error otherwise. -/
theorem c4_db_fallback {α : Type} (env : AnalyzeEnv α) (e : String)
    (hrec : env.recompute = Except.error e)
    (hredis : ∀ d, env.redisEntry = some d →
      ¬(d.lastUpdated ≠ 0 ∧ env.now - d.lastUpdated < UPDATE_THRESHOLD))
    (hpg : ∀ d, env.redisEntry = none → env.pgEntry = some d →
      ¬(env.now - d.lastUpdated < UPDATE_THRESHOLD)) :
    (∀ d, env.pgEntry = some d →
      POST env =
        { response := PostResponse.ok (extractResponseData d) "DB-FALLBACK"
          volatileWrite := none
          durableWrite := none }) ∧
    (env.pgEntry = none →
      POST env =
        { response := PostResponse.err e
          volatileWrite := none
          durableWrite := none }) := by
  have hpath : ∀ s : String, recomputePath env s =
      match env.pgEntry with
      | some d =>
        { response := PostResponse.ok (extractResponseData d) "DB-FALLBACK"
          volatileWrite := none
          durableWrite := none }
      | none =>
        { response := PostResponse.err e
          volatileWrite := none
          durableWrite := none } := by
    intro s
    unfold recomputePath
    rw [hrec]
  constructor
  · intro d hd
    cases hr : env.redisEntry with
    | some stored =>
      rw [POST_redis_some env stored hr, if_neg (hredis stored hr),
        hpath "REFRESH", hd]
    | none =>
      rw [POST_pg_some env d hr hd, if_neg (hpg d hr hd),
        hpath "DB-REFRESH", hd]
  · intro hd
    cases hr : env.redisEntry with
    | some stored =>
      rw [POST_redis_some env stored hr, if_neg (hredis stored hr),
        hpath "REFRESH", hd]
    | none =>
      rw [POST_miss env hr hd, hpath "MISS", hd]

def entryC4 : StoredAnalysisData Nat :=
  { lbPairAddress := "pool", analysisResult := 7, lastUpdated := 0, createdAt := 0 }

def envC4 : AnalyzeEnv Nat :=
  { lbPairAddress := "pool", redisEntry := none, pgEntry := some entryC4,
    recompute := Except.error "UpstreamFetchError", now := 864000000 }

/-- C4, witness: volatile store empty, durable entry 10 days old
(864000000 ms), recompute throws `UpstreamFetchError` — the response is the
stale payload tagged DB-FALLBACK, not an error. -/
theorem c4_witness :
    POST envC4 =
      { response := PostResponse.ok (extractResponseData entryC4) "DB-FALLBACK"
        volatileWrite := none
        durableWrite := none } :=
  (c4_db_fallback envC4 "UpstreamFetchError" rfl
    (fun _ hd => Option.noConfusion hd)
    (fun d _ hd => by
      have hde : entryC4 = d := Option.some.inj hd
      rw [← hde]
      decide)).1 entryC4 rfl

/-! ### C2 -/

/-- A 304-byte buffer whose trailer encodes `lowerBinId = 5` (offset 100) and
`upperBinId = 5` (offset 104) while leaving room for two 16-byte share
slots. -/
def bufC2 : List Nat :=
  List.replicate 100 0 ++ 5 :: List.replicate 3 0 ++ 5 :: List.replicate 199 0

set_option maxRecDepth 10000 in
/-- C2, counterexample: the decoder accepts `bufC2` and returns two liquidity
shares although the decoded bin range `upperBinId − lowerBinId + 1` is 1; the
share-sequence length is bounded by buffer capacity, not by the bin range. -/
theorem c2_counterexample :
    (decodePosition bufC2 "pos").liquidityShares.length = 2 ∧
      (decodePosition bufC2 "pos").upperBinId -
          (decodePosition bufC2 "pos").lowerBinId + 1 = 1 ∧
      ¬(((decodePosition bufC2 "pos").liquidityShares.length : Int) ≤
        (decodePosition bufC2 "pos").upperBinId -
          (decodePosition bufC2 "pos").lowerBinId + 1) := by
  refine ⟨by decide, by decide, by decide⟩

/-- C2, amended: the decoded share sequence is bounded by
`min(70, ⌊(bufferLength − 272) / 16⌋)` — the 70-slot cap and the space left
before the 200-byte trailer — not by the bin range; the bin-range clamp is
applied downstream, where `calculatePositionPriceRange` consumes only indices
`i < min(shares.length, upperBinId − lowerBinId + 1)` and interprets index
`i` as bin `lowerBinId + i` carrying share `shares[i]`. -/
theorem c2_share_length_bound :
    (∀ (buf : List Nat) (pubkey : String),
      (decodePosition buf pubkey).liquidityShares.length ≤
        min 70 ((buf.length - 72 - 200) / 16)) ∧
    (∀ (pos : PositionInput) (binStep dX dY : Int) (d : DistEntry),
      d ∈ (calculatePositionPriceRange pos binStep dX dY).liquidityDistribution →
      ∃ i : Nat, (i : Int) < pos.upperBinId - pos.lowerBinId + 1 ∧
        i < pos.liquidityShares.length ∧
        d.binId = pos.lowerBinId + (i : Int) ∧
        d.liquidity = pos.liquidityShares.getD i 0) := by
  constructor
  · intro buf pubkey
    exact length_readShares buf (min 70 ((buf.length - 72 - 200) / 16)) 72
  · intro pos binStep dX dY d hd
    unfold calculatePositionPriceRange at hd
    simp only [List.mem_filterMap, List.mem_range] at hd
    obtain ⟨i, hi, hf⟩ := hd
    by_cases hpos : 0 < pos.liquidityShares.getD i 0
    · rw [if_pos hpos] at hf
      cases hf
      refine ⟨i, ?_, ?_, rfl, rfl⟩
      · have h₁ : i < (pos.upperBinId - pos.lowerBinId + 1).toNat :=
          lt_of_lt_of_le hi (Nat.min_le_right _ _)
        omega
      · exact lt_of_lt_of_le hi (Nat.min_le_left _ _)
    · rw [if_neg hpos] at hf
      exact Option.noConfusion hf

/-- C2, witness for the amended theorem: a one-bin position yields the single
distribution entry predicted by the index correspondence. -/
theorem c2_witness :
    ∃ i : Nat, (i : Int) < (1 : Int) - 0 + 1 ∧ i < 1 ∧
      (0 : Int) = 0 + (i : Int) ∧ (3 : Nat) = ([3] : List Nat).getD i 0 := by
  have h := c2_share_length_bound.2
    { lowerBinId := 0, upperBinId := 1, liquidityShares := [3] } 0 0 0 _
    (List.mem_cons_self _ _)
  simpa using h

/-! ### C3 -/

/-- A 152-byte buffer with byte 80 set to 7 and all other bytes 0. -/
def bufC3 : List Nat := List.replicate 80 0 ++ 7 :: List.replicate 71 0

set_option maxRecDepth 10000 in
/-- C3, counterexample: on `bufC3` the decoder returns `binStep = 7` (the
little-endian 16-bit value at offset 80), while the layout the spec describes
(binStep at offset 81 after 9 bytes of flags/ids) would return 0 — the two
decoders disagree on a concrete buffer. -/
theorem c3_counterexample :
    decodeLBPairAccount bufC3 ≠ decodeLBPairAccountSpecC3 bufC3 ∧
      (decodeLBPairAccount bufC3).binStep = 7 ∧
      (decodeLBPairAccountSpecC3 bufC3).binStep = 0 := by
  refine ⟨by decide, by decide, by decide⟩

/-- C3, amended: binStep is read as a signed little-endian 16-bit integer at
byte offset 80 — after the 8-byte tag, the 64-byte params block and 8 bytes
of flags/ids (bump seed 1, bin-step seed 2, pair type 1, active id 4) — then
6 bytes of flags are skipped before tokenX and tokenY are read as consecutive
32-byte identifiers at offsets 88 and 120. -/
theorem c3_layout_offsets (buf : List Nat) :
    decodeLBPairAccount buf =
      { tokenX := readBytes buf 88 32
        tokenY := readBytes buf 120 32
        binStep := asInt16 (readLE buf 80 2) } :=
  rfl

/-! ### C5 -/

/-- C5: a share slot decodes to exactly `high * 2^64 + low`, where `low` and
`high` are the two consecutive little-endian 64-bit words (low first); the
`(high << 64) | low` combination in the source coincides with the exact
integer sum for every pair of word values below `2^64`. -/
theorem c5_share_is_high_low (buf : List Nat) (off : Nat)
    (h : ∀ b ∈ buf, b < 256) :
    readShare buf off = readLE buf (off + 8) 8 * 2 ^ 64 + readLE buf off 8 := by
  have hlow : readLE buf off 8 < 2 ^ 64 := by
    have h8 := readLE_lt h 8 off
    norm_num at h8
    norm_num
    exact h8
  calc readShare buf off
      = readLE buf (off + 8) 8 <<< 64 ||| readLE buf off 8 := rfl
    _ = readLE buf (off + 8) 8 * 2 ^ 64 ||| readLE buf off 8 := by
        rw [Nat.shiftLeft_eq]
    _ = 2 ^ 64 * readLE buf (off + 8) 8 ||| readLE buf off 8 := by
        rw [Nat.mul_comm]
    _ = 2 ^ 64 * readLE buf (off + 8) 8 + readLE buf off 8 :=
        (Nat.mul_add_lt_is_or hlow (readLE buf (off + 8) 8)).symm
    _ = readLE buf (off + 8) 8 * 2 ^ 64 + readLE buf off 8 := by
        rw [Nat.mul_comm (2 ^ 64)]

/-- C5, witness: a 16-byte slot of 0xFF bytes decodes to
`(2^64 − 1) * 2^64 + (2^64 − 1)`, the largest representable 128-bit value. -/
theorem c5_witness :
    readShare (List.replicate 16 255) 0 =
      readLE (List.replicate 16 255) 8 8 * 2 ^ 64 +
        readLE (List.replicate 16 255) 0 8 ∧
      readLE (List.replicate 16 255) 0 8 = 2 ^ 64 - 1 :=
  ⟨c5_share_is_high_low (List.replicate 16 255) 0 (by decide), by decide⟩

/-! ### C6 -/

/-- C6: with `binStep > 0` the bin price ladder
`price(b) = (1 + binStep/10000)^b / 10^(decimalsY − decimalsX)` is strictly
increasing in the bin index, for every integer bin index and any decimals:
ties never occur. -/
theorem c6_price_strict_mono (binStep : ℚ) (dX dY b : Int)
    (h : 0 < binStep) :
    priceQ binStep dX dY b < priceQ binStep dX dY (b + 1) := by
  unfold priceQ
  rw [qpow_eq_zpow, qpow_eq_zpow, qpow_eq_zpow]
  have hadj : (0 : ℚ) < (10 : ℚ) ^ (dY - dX) := zpow_pos (by norm_num) _
  have hbase : (1 : ℚ) < 1 + binStep / 10000 := by
    have hq : (0 : ℚ) < binStep / 10000 := by positivity
    linarith
  have hpow : (1 + binStep / 10000) ^ b < (1 + binStep / 10000) ^ (b + 1) :=
    zpow_lt_zpow_right₀ hbase (lt_add_one b)
  exact (div_lt_div_iff_of_pos_right hadj).mpr hpow

/-- C6, witness: at `binStep = 100`, `decimals 6/6`, the price at bin 1 is
strictly above the price at bin 0. -/
theorem c6_witness :
    (0 : ℚ) < 100 ∧ priceQ 100 6 6 0 < priceQ 100 6 6 (0 + 1) :=
  ⟨by norm_num, c6_price_strict_mono 100 6 6 0 (by norm_num)⟩

/-! ### C8 -/

def posC8 : PositionInput :=
  { lowerBinId := 100, upperBinId := 102, liquidityShares := [5, 0, 3] }

set_option maxRecDepth 10000 in
/-- C8: the single position `lowerBinId = 100`, `upperBinId = 102`, shares
`[5, 0, 3]` in a pool with `binStep = 100`, `decimalsX = decimalsY = 6`
aggregates to exactly the bins `{100 ↦ 5, 102 ↦ 3}` in ascending bin order;
bin 101 is excluded because its share is zero. -/
theorem c8_scenario :
    (aggregateLiquidityForChart [calculatePositionPriceRange posC8 100 6 6]).map
      (fun d => (d.binId, d.totalLiquidity)) = [(100, 5), (102, 3)] := by
  decide

/-! ### C10 -/

/-- C10: `getTokenMetadata` never propagates a failure — a thrown fetch,
missing account data, a non-spl-token owner, or missing parsed info all
produce the mint with the default `decimals = 6`. -/
theorem c10_default_decimals (mint msg : String) (d : ParsedTokenData) :
    getTokenMetadata mint (MintAccountFetch.threw msg) =
        { mint := mint, decimals := 6 } ∧
      getTokenMetadata mint (MintAccountFetch.success none) =
        { mint := mint, decimals := 6 } ∧
      (d.program ≠ "spl-token" →
        getTokenMetadata mint (MintAccountFetch.success (some d)) =
          { mint := mint, decimals := 6 }) ∧
      (d.parsed = none →
        getTokenMetadata mint (MintAccountFetch.success (some d)) =
          { mint := mint, decimals := 6 }) := by
  refine ⟨rfl, rfl, ?_, ?_⟩
  · intro h
    simp [getTokenMetadata, h]
  · intro h
    by_cases hp : d.program = "spl-token" <;> simp [getTokenMetadata, hp, h]

/-- C10, witness: an account owned by a different program with no parsed info
resolves to the default decimals. -/
theorem c10_witness :
    getTokenMetadata "mintA"
        (MintAccountFetch.success (some { program := "wrong", parsed := none })) =
      { mint := "mintA", decimals := 6 } :=
  (c10_default_decimals "mintA" "boom" { program := "wrong", parsed := none }).2.2.1
    (by decide)

/-! ### C7 and C9: a canonical form for the aggregation maps

The two JS maps built by the aggregation loop are characterised as canonical
association lists over the keys in first-insertion order: the liquidity map
holds, for each key, the total share contributed so far, and the price map
the last written price. -/

/-- Insert a key if absent (JS `Map.set` key behaviour). -/
def insKey (ks : List Int) (k : Int) : List Int :=
  if k ∈ ks then ks else ks ++ [k]

/-- The bin ids of a contribution list in first-insertion order. -/
def keysOf (cs : List DistEntry) : List Int :=
  cs.foldl (fun ks d => insKey ks d.binId) []

/-- Total share contributed to bin `k`. -/
def totalFor (cs : List DistEntry) (k : Int) : Nat :=
  ((cs.filter (fun d => d.binId == k)).map (fun d => d.liquidity)).sum

/-- Last `minPrice` written for bin `k`. -/
def lastPriceFor (cs : List DistEntry) (k : Int) : Option ℚ :=
  ((cs.filter (fun d => d.binId == k)).map (fun d => d.minPrice)).getLast?

/-- An association list tabulating `f` over `ks`. -/
def canonMap {β : Type} (ks : List Int) (f : Int → β) : List (Int × β) :=
  ks.map (fun k => (k, f k))

/-- The canonical value of the two aggregation maps after consuming `cs`. -/
def canonState (cs : List DistEntry) : List (Int × Nat) × List (Int × ℚ) :=
  (canonMap (keysOf cs) (totalFor cs),
   canonMap (keysOf cs) (fun k => (lastPriceFor cs k).getD 0))

/-- All distribution entries of a batch, in processing order. -/
def allDists (positionsWithRanges : List PositionWithRange) : List DistEntry :=
  positionsWithRanges.flatMap (fun p => p.liquidityDistribution)

theorem mem_insKey {ks : List Int} {k k₀ : Int} :
    k ∈ insKey ks k₀ ↔ k ∈ ks ∨ k = k₀ := by
  unfold insKey
  by_cases h : k₀ ∈ ks
  · rw [if_pos h]
    constructor
    · exact Or.inl
    · rintro (hk | rfl)
      · exact hk
      · exact h
  · rw [if_neg h]
    simp

theorem nodup_insKey {ks : List Int} (h : ks.Nodup) (k₀ : Int) :
    (insKey ks k₀).Nodup := by
  unfold insKey
  by_cases hm : k₀ ∈ ks
  · rw [if_pos hm]
    exact h
  · rw [if_neg hm]
    rw [List.nodup_append]
    refine ⟨h, List.nodup_singleton k₀, ?_⟩
    intro x hx hx'
    rw [List.mem_singleton] at hx'
    exact hm (hx' ▸ hx)

theorem mem_foldl_insKey (k : Int) :
    ∀ (cs : List DistEntry) (ks : List Int),
      k ∈ cs.foldl (fun ks d => insKey ks d.binId) ks ↔
        k ∈ ks ∨ ∃ d ∈ cs, d.binId = k := by
  intro cs
  induction cs with
  | nil => intro ks; simp
  | cons c cs ih =>
    intro ks
    rw [List.foldl_cons, ih, mem_insKey]
    constructor
    · rintro ((hk | rfl) | ⟨d, hd, rfl⟩)
      · exact Or.inl hk
      · exact Or.inr ⟨c, List.mem_cons_self c cs, rfl⟩
      · exact Or.inr ⟨d, List.mem_cons_of_mem c hd, rfl⟩
    · rintro (hk | ⟨d, hd, rfl⟩)
      · exact Or.inl (Or.inl hk)
      · rcases List.mem_cons.mp hd with rfl | hd
        · exact Or.inl (Or.inr rfl)
        · exact Or.inr ⟨d, hd, rfl⟩

theorem mem_keysOf {cs : List DistEntry} {k : Int} :
    k ∈ keysOf cs ↔ ∃ d ∈ cs, d.binId = k := by
  unfold keysOf
  rw [mem_foldl_insKey]
  simp

theorem nodup_foldl_insKey :
    ∀ (cs : List DistEntry) (ks : List Int), ks.Nodup →
      (cs.foldl (fun ks d => insKey ks d.binId) ks).Nodup := by
  intro cs
  induction cs with
  | nil => intro ks h; simpa using h
  | cons c cs ih =>
    intro ks h
    rw [List.foldl_cons]
    exact ih (insKey ks c.binId) (nodup_insKey h c.binId)

theorem nodup_keysOf (cs : List DistEntry) : (keysOf cs).Nodup :=
  nodup_foldl_insKey cs [] List.nodup_nil

theorem keysOf_append_single (pre : List DistEntry) (d : DistEntry) :
    keysOf (pre ++ [d]) = insKey (keysOf pre) d.binId := by
  unfold keysOf
  rw [List.foldl_append]
  rfl

theorem totalFor_append_single (pre : List DistEntry) (d : DistEntry) (k : Int) :
    totalFor (pre ++ [d]) k =
      totalFor pre k + (if d.binId == k then d.liquidity else 0) := by
  unfold totalFor
  rw [List.filter_append]
  by_cases h : d.binId == k
  · simp [h]
  · simp [List.filter_cons, h]

theorem lastPriceFor_append_single (pre : List DistEntry) (d : DistEntry)
    (k : Int) :
    lastPriceFor (pre ++ [d]) k =
      if d.binId == k then some d.minPrice else lastPriceFor pre k := by
  unfold lastPriceFor
  rw [List.filter_append]
  by_cases h : d.binId == k
  · simp only [List.filter_cons, h, if_pos, List.filter_nil, List.map_append,
      List.map_cons, List.map_nil]
    rw [List.getLast?_concat]
  · simp [List.filter_cons, h]

theorem totalFor_of_not_mem_keys {cs : List DistEntry} {k : Int}
    (h : k ∉ keysOf cs) : totalFor cs k = 0 := by
  unfold totalFor
  have hnil : cs.filter (fun d => d.binId == k) = [] := by
    rw [List.filter_eq_nil_iff]
    intro d hd
    intro hbeq
    exact h (mem_keysOf.mpr ⟨d, hd, by simpa using hbeq⟩)
  rw [hnil]
  rfl

theorem mapGet_canonMap {β : Type} (f : Int → β) (k : Int) :
    ∀ ks : List Int,
      mapGet (canonMap ks f) k = if k ∈ ks then some (f k) else none := by
  intro ks
  induction ks with
  | nil => simp [mapGet, canonMap]
  | cons a ks ih =>
    unfold mapGet canonMap at ih ⊢
    rw [List.map_cons, List.find?_cons]
    by_cases ha : a == k
    · have hak : a = k := by simpa using ha
      simp [ha, hak]
    · have hak : ¬(k = a) := by
        intro hk
        exact ha (by simp [hk])
      simp only [ha]
      rw [ih]
      simp [hak]

theorem any_canonMap {β : Type} (f : Int → β) (k : Int) (ks : List Int) :
    (canonMap ks f).any (fun p => p.1 == k) = true ↔ k ∈ ks := by
  induction ks with
  | nil => simp [canonMap]
  | cons a ks ih =>
    unfold canonMap at ih ⊢
    rw [List.map_cons, List.any_cons, Bool.or_eq_true, ih, List.mem_cons]
    constructor
    · rintro (h | h)
      · have ha : a = k := by simpa using h
        exact Or.inl ha.symm
      · exact Or.inr h
    · rintro (h | h)
      · have ha : ((a, f a).1 == k) = true := by simpa using h.symm
        exact Or.inl ha
      · exact Or.inr h

theorem mapSet_canonMap_mem {β : Type} {ks : List Int} {k : Int}
    (h : k ∈ ks) (f : Int → β) (v : β) :
    mapSet (canonMap ks f) k v =
      canonMap ks (fun x => if x = k then v else f x) := by
  unfold mapSet
  rw [if_pos ((any_canonMap f k ks).mpr h)]
  unfold canonMap
  rw [List.map_map]
  apply List.map_congr_left
  intro x _
  by_cases hx : x = k
  · simp [Function.comp, hx]
  · have hb : ¬(x == k) = true := by simpa using hx
    simp [Function.comp, hb, hx]

theorem mapSet_canonMap_not_mem {β : Type} {ks : List Int} {k : Int}
    (h : k ∉ ks) (f : Int → β) (v : β) :
    mapSet (canonMap ks f) k v =
      canonMap (ks ++ [k]) (fun x => if x = k then v else f x) := by
  unfold mapSet
  have hany : ¬((canonMap ks f).any (fun p => p.1 == k) = true) := by
    rw [any_canonMap]
    exact h
  rw [if_neg hany]
  unfold canonMap
  rw [List.map_append]
  congr 1
  · apply List.map_congr_left
    intro x hx
    have hxk : ¬(x = k) := fun hh => h (hh ▸ hx)
    simp [hxk]
  · simp

/-- Mapping over a tabulated association list. -/
theorem map_canonMap {β γ : Type} (ks : List Int) (f : Int → β)
    (g : Int × β → γ) :
    (canonMap ks f).map g = ks.map (fun k => g (k, f k)) := by
  unfold canonMap
  rw [List.map_map]
  rfl

/-- One aggregation step preserves the canonical form of the two maps. -/
theorem aggStep_canonState (pre : List DistEntry) (d : DistEntry) :
    aggStep (canonState pre) d = canonState (pre ++ [d]) := by
  by_cases hd : d.binId ∈ keysOf pre
  · have hkeys : keysOf (pre ++ [d]) = keysOf pre := by
      rw [keysOf_append_single]
      unfold insKey
      rw [if_pos hd]
    unfold aggStep canonState
    rw [hkeys]
    apply Prod.ext
    · simp only
      rw [mapGet_canonMap, if_pos hd, Option.getD_some, mapSet_canonMap_mem hd]
      unfold canonMap
      apply List.map_congr_left
      intro x hx
      apply congrArg (Prod.mk x)
      dsimp only
      by_cases hxk : x = d.binId
      · subst hxk
        rw [if_pos rfl, totalFor_append_single]
        simp
      · rw [if_neg hxk, totalFor_append_single]
        have hb : (d.binId == x) = false :=
          beq_eq_false_iff_ne.mpr (fun hh => hxk hh.symm)
        simp [hb]
    · simp only
      rw [mapSet_canonMap_mem hd]
      unfold canonMap
      apply List.map_congr_left
      intro x hx
      apply congrArg (Prod.mk x)
      dsimp only
      by_cases hxk : x = d.binId
      · subst hxk
        rw [if_pos rfl, lastPriceFor_append_single]
        simp
      · rw [if_neg hxk, lastPriceFor_append_single]
        have hb : (d.binId == x) = false :=
          beq_eq_false_iff_ne.mpr (fun hh => hxk hh.symm)
        simp [hb]
  · have hkeys : keysOf (pre ++ [d]) = keysOf pre ++ [d.binId] := by
      rw [keysOf_append_single]
      unfold insKey
      rw [if_neg hd]
    unfold aggStep canonState
    rw [hkeys]
    apply Prod.ext
    · simp only
      rw [mapGet_canonMap, if_neg hd, Option.getD_none, mapSet_canonMap_not_mem hd]
      unfold canonMap
      apply List.map_congr_left
      intro x hx
      apply congrArg (Prod.mk x)
      dsimp only
      by_cases hxk : x = d.binId
      · subst hxk
        rw [if_pos rfl, totalFor_append_single,
          totalFor_of_not_mem_keys hd]
        simp
      · rw [if_neg hxk, totalFor_append_single]
        have hb : (d.binId == x) = false :=
          beq_eq_false_iff_ne.mpr (fun hh => hxk hh.symm)
        simp [hb]
    · simp only
      rw [mapSet_canonMap_not_mem hd]
      unfold canonMap
      apply List.map_congr_left
      intro x hx
      apply congrArg (Prod.mk x)
      dsimp only
      by_cases hxk : x = d.binId
      · subst hxk
        rw [if_pos rfl, lastPriceFor_append_single]
        simp
      · rw [if_neg hxk, lastPriceFor_append_single]
        have hb : (d.binId == x) = false :=
          beq_eq_false_iff_ne.mpr (fun hh => hxk hh.symm)
        simp [hb]

/-- Folding the aggregation step from a canonical state stays canonical. -/
theorem foldl_aggStep_canonState :
    ∀ (cs pre : List DistEntry),
      cs.foldl aggStep (canonState pre) = canonState (pre ++ cs) := by
  intro cs
  induction cs with
  | nil => intro pre; simp
  | cons d cs ih =>
    intro pre
    rw [List.foldl_cons, aggStep_canonState, ih, List.append_assoc,
      List.singleton_append]

/-- The two maps built by the nested aggregation loops are the canonical maps
of the flattened contribution list. -/
theorem aggMaps_eq (ps : List PositionWithRange) :
    aggMaps ps = canonState (allDists ps) := by
  have h : (allDists ps).foldl aggStep ([], []) = canonState (allDists ps) := by
    have h' := foldl_aggStep_canonState (allDists ps) []
    rw [List.nil_append] at h'
    exact h'
  rw [← h]
  unfold aggMaps allDists
  rw [List.flatMap_def, List.foldl_flatten, List.foldl_map]

/-- The aggregation output is the per-key canonical data, sorted. -/
theorem agg_eq_canonical (ps : List PositionWithRange) :
    aggregateLiquidityForChart ps =
      ((keysOf (allDists ps)).map (fun k =>
        { binId := k
          totalLiquidity := totalFor (allDists ps) k
          price := (lastPriceFor (allDists ps) k).getD 0 : LiquidityData })).insertionSort
        binIdLe := by
  simp only [aggregateLiquidityForChart]
  rw [aggMaps_eq]
  simp only [canonState]
  rw [map_canonMap]
  congr 1
  apply List.map_congr_left
  intro k hk
  rw [mapGet_canonMap, if_pos hk]
  rfl

/-- Every distribution entry a position produces has the canonical bin price
as `minPrice` and a strictly positive share. -/
theorem calc_entry_spec {p : PositionInput} {binStep dX dY : Int}
    {d : DistEntry}
    (hd : d ∈ (calculatePositionPriceRange p binStep dX dY).liquidityDistribution) :
    d.minPrice = priceQ (binStep : ℚ) dX dY d.binId ∧ 0 < d.liquidity := by
  unfold calculatePositionPriceRange at hd
  simp only [List.mem_filterMap, List.mem_range] at hd
  obtain ⟨i, hi, hf⟩ := hd
  by_cases hpos : 0 < p.liquidityShares.getD i 0
  · rw [if_pos hpos] at hf
    cases hf
    exact ⟨rfl, hpos⟩
  · rw [if_neg hpos] at hf
    exact Option.noConfusion hf

/-- The same, lifted to every entry of a batch whose members all come from
`calculatePositionPriceRange` with the same pool parameters. -/
theorem allDists_spec {binStep dX dY : Int} {rs : List PositionWithRange}
    (hrs : ∀ r ∈ rs, ∃ p, r = calculatePositionPriceRange p binStep dX dY)
    {d : DistEntry} (hd : d ∈ allDists rs) :
    d.minPrice = priceQ (binStep : ℚ) dX dY d.binId ∧ 0 < d.liquidity := by
  unfold allDists at hd
  rw [List.mem_flatMap] at hd
  obtain ⟨r, hr, hdr⟩ := hd
  obtain ⟨p, rfl⟩ := hrs r hr
  exact calc_entry_spec hdr

theorem getLast?_eq_of_all {γ : Type} (a : γ) :
    ∀ l : List γ, l ≠ [] → (∀ x ∈ l, x = a) → l.getLast? = some a := by
  intro l
  induction l with
  | nil => intro h _; exact absurd rfl h
  | cons x t ih =>
    intro _ ha
    cases t with
    | nil =>
      have hx : x = a := ha x (by simp)
      simp [hx]
    | cons y t' =>
      rw [List.getLast?_cons_cons]
      exact ih (by simp) (fun z hz => ha z (List.mem_cons_of_mem x hz))

/-- When every contribution to a key carries the same canonical price, the
last write for that key is that price. -/
theorem lastPriceFor_eq {cs : List DistEntry} {k : Int} (P : Int → ℚ)
    (hall : ∀ d ∈ cs, d.minPrice = P d.binId) (hk : k ∈ keysOf cs) :
    lastPriceFor cs k = some (P k) := by
  unfold lastPriceFor
  obtain ⟨d₀, hd₀, hbin⟩ := mem_keysOf.mp hk
  have hmem : d₀ ∈ cs.filter (fun d => d.binId == k) :=
    List.mem_filter.mpr ⟨hd₀, by simpa using hbin⟩
  apply getLast?_eq_of_all
  · intro hmap
    rw [List.map_eq_nil_iff] at hmap
    rw [hmap] at hmem
    exact absurd hmem (List.not_mem_nil d₀)
  · intro x hx
    rw [List.mem_map] at hx
    obtain ⟨d, hdf, rfl⟩ := hx
    have hdc := List.mem_filter.mp hdf
    have hbeq : d.binId = k := by simpa using hdc.2
    rw [hall d hdc.1, hbeq]

/-- Per-key totals are invariant under permutation of the contributions. -/
theorem totalFor_perm {cs cs' : List DistEntry} (h : cs.Perm cs') (k : Int) :
    totalFor cs k = totalFor cs' k := by
  unfold totalFor
  exact ((h.filter _).map _).sum_eq

/-- The key lists of permuted contribution lists are permutations. -/
theorem keysOf_perm {cs cs' : List DistEntry} (h : cs.Perm cs') :
    (keysOf cs).Perm (keysOf cs') := by
  rw [List.perm_ext_iff_of_nodup (nodup_keysOf cs) (nodup_keysOf cs')]
  intro k
  rw [mem_keysOf, mem_keysOf]
  constructor
  · rintro ⟨d, hd, rfl⟩
    exact ⟨d, h.mem_iff.mp hd, rfl⟩
  · rintro ⟨d, hd, rfl⟩
    exact ⟨d, h.mem_iff.mpr hd, rfl⟩

/-- Sorting by bin id is determined by the multiset when bin ids are
distinct. -/
theorem insertionSort_eq_of_perm {l₁ l₂ : List LiquidityData} (h : l₁.Perm l₂)
    (hnd : (l₁.map (fun d => d.binId)).Nodup) :
    l₁.insertionSort binIdLe = l₂.insertionSort binIdLe := by
  have p₁ := List.perm_insertionSort binIdLe l₁
  have p₂ := List.perm_insertionSort binIdLe l₂
  have hp : (l₁.insertionSort binIdLe).Perm (l₂.insertionSort binIdLe) :=
    p₁.trans (h.trans p₂.symm)
  have s₁ : (l₁.insertionSort binIdLe).Pairwise binIdLe :=
    List.sorted_insertionSort binIdLe l₁
  have s₂ : (l₂.insertionSort binIdLe).Pairwise binIdLe :=
    List.sorted_insertionSort binIdLe l₂
  have hnd₁ : ((l₁.insertionSort binIdLe).map (fun d => d.binId)).Nodup :=
    ((p₁.map (fun d => d.binId)).nodup_iff).mpr hnd
  have hnd₂ : ((l₂.insertionSort binIdLe).map (fun d => d.binId)).Nodup := by
    apply ((p₂.map (fun d => d.binId)).nodup_iff).mpr
    exact ((h.map (fun d => d.binId)).nodup_iff).mp hnd
  have hne₁ : (l₁.insertionSort binIdLe).Pairwise
      (fun a b => a.binId ≠ b.binId) := (List.pairwise_map).mp hnd₁
  have hne₂ : (l₂.insertionSort binIdLe).Pairwise
      (fun a b => a.binId ≠ b.binId) := (List.pairwise_map).mp hnd₂
  have st₁ : (l₁.insertionSort binIdLe).Pairwise
      (fun a b => a.binId < b.binId) :=
    (s₁.and hne₁).imp (fun hab => lt_of_le_of_ne hab.1 hab.2)
  have st₂ : (l₂.insertionSort binIdLe).Pairwise
      (fun a b => a.binId < b.binId) :=
    (s₂.and hne₂).imp (fun hab => lt_of_le_of_ne hab.1 hab.2)
  haveI : IsAntisymm LiquidityData (fun a b => a.binId < b.binId) :=
    ⟨fun _ _ h₁ h₂ => absurd (h₁.trans h₂) (lt_irrefl _)⟩
  exact List.eq_of_perm_of_sorted hp st₁ st₂

/-- C7: aggregation is order-independent — permuting the decoded position
list yields the identical sorted bin mapping (same bins, same aggregate share
per bin, same representative price per bin). -/
theorem c7_order_independent (binStep dX dY : Int)
    (ps ps' : List PositionInput) (hperm : ps.Perm ps') :
    aggregateLiquidityForChart
        (ps'.map (fun p => calculatePositionPriceRange p binStep dX dY)) =
      aggregateLiquidityForChart
        (ps.map (fun p => calculatePositionPriceRange p binStep dX dY)) := by
  have hflat :
      (allDists (ps.map (fun p => calculatePositionPriceRange p binStep dX dY))).Perm
        (allDists (ps'.map (fun p => calculatePositionPriceRange p binStep dX dY))) :=
    (hperm.map _).flatMap_right _
  have hrs : ∀ s : List PositionInput,
      ∀ r ∈ s.map (fun p => calculatePositionPriceRange p binStep dX dY),
        ∃ p, r = calculatePositionPriceRange p binStep dX dY := by
    intro s r hr
    obtain ⟨p, _, rfl⟩ := List.mem_map.mp hr
    exact ⟨p, rfl⟩
  rw [agg_eq_canonical, agg_eq_canonical]
  have e₁ :
      (keysOf (allDists (ps'.map
          (fun p => calculatePositionPriceRange p binStep dX dY)))).map
        (fun k =>
          { binId := k
            totalLiquidity := totalFor (allDists (ps'.map
              (fun p => calculatePositionPriceRange p binStep dX dY))) k
            price := (lastPriceFor (allDists (ps'.map
              (fun p => calculatePositionPriceRange p binStep dX dY))) k).getD 0
            : LiquidityData }) =
      (keysOf (allDists (ps'.map
          (fun p => calculatePositionPriceRange p binStep dX dY)))).map
        (fun k =>
          { binId := k
            totalLiquidity := totalFor (allDists (ps.map
              (fun p => calculatePositionPriceRange p binStep dX dY))) k
            price := priceQ (binStep : ℚ) dX dY k }) := by
    apply List.map_congr_left
    intro k hk
    rw [lastPriceFor_eq (priceQ (binStep : ℚ) dX dY)
      (fun d hd => (allDists_spec (hrs ps') hd).1) hk]
    rw [totalFor_perm hflat.symm k]
    rfl
  have e₂ :
      (keysOf (allDists (ps.map
          (fun p => calculatePositionPriceRange p binStep dX dY)))).map
        (fun k =>
          { binId := k
            totalLiquidity := totalFor (allDists (ps.map
              (fun p => calculatePositionPriceRange p binStep dX dY))) k
            price := (lastPriceFor (allDists (ps.map
              (fun p => calculatePositionPriceRange p binStep dX dY))) k).getD 0
            : LiquidityData }) =
      (keysOf (allDists (ps.map
          (fun p => calculatePositionPriceRange p binStep dX dY)))).map
        (fun k =>
          { binId := k
            totalLiquidity := totalFor (allDists (ps.map
              (fun p => calculatePositionPriceRange p binStep dX dY))) k
            price := priceQ (binStep : ℚ) dX dY k }) := by
    apply List.map_congr_left
    intro k hk
    rw [lastPriceFor_eq (priceQ (binStep : ℚ) dX dY)
      (fun d hd => (allDists_spec (hrs ps) hd).1) hk]
    rfl
  rw [e₁, e₂]
  apply insertionSort_eq_of_perm
  · exact (keysOf_perm hflat.symm).map _
  · rw [List.map_map]
    have hid :
        ((fun d : LiquidityData => d.binId) ∘
          (fun k : Int =>
            ({ binId := k
               totalLiquidity := totalFor (allDists (ps.map
                 (fun p => calculatePositionPriceRange p binStep dX dY))) k
               price := priceQ (binStep : ℚ) dX dY k } : LiquidityData))) =
          fun k : Int => k := rfl
    rw [hid]
    simpa using nodup_keysOf _

def psC7 : List PositionInput :=
  [{ lowerBinId := 0, upperBinId := 0, liquidityShares := [1] },
   { lowerBinId := 5, upperBinId := 5, liquidityShares := [2] }]

def psC7' : List PositionInput :=
  [{ lowerBinId := 5, upperBinId := 5, liquidityShares := [2] },
   { lowerBinId := 0, upperBinId := 0, liquidityShares := [1] }]

/-- C7, witness: swapping two concrete positions leaves the aggregated
mapping unchanged. -/
theorem c7_witness :
    aggregateLiquidityForChart
        (psC7'.map (fun p => calculatePositionPriceRange p 100 6 6)) =
      aggregateLiquidityForChart
        (psC7.map (fun p => calculatePositionPriceRange p 100 6 6)) :=
  c7_order_independent 100 6 6 psC7 psC7'
    (List.Perm.swap _ _ [])

/-- C9: every aggregated bin carries a strictly positive total share, so the
stats block always reports `activeBins = totalBins`. -/
theorem c9_activeBins_eq_totalBins (binStep dX dY : Int)
    (ps : List PositionInput) :
    (analyzeStats (analyzePipeline ps binStep dX dY)).activeBins =
      (analyzeStats (analyzePipeline ps binStep dX dY)).totalBins := by
  have hall : ∀ x ∈ analyzePipeline ps binStep dX dY, 0 < x.totalLiquidity := by
    intro x hx
    unfold analyzePipeline at hx
    rw [agg_eq_canonical] at hx
    rw [List.mem_insertionSort, List.mem_map] at hx
    obtain ⟨k, hk, rfl⟩ := hx
    dsimp only
    obtain ⟨d₀, hd₀, hbin⟩ := mem_keysOf.mp hk
    have hrs : ∀ r ∈ (ps.map
        (fun p => calculatePositionPriceRange p binStep dX dY)).filter
          (fun r => 0 < r.totalLiquidity),
        ∃ p, r = calculatePositionPriceRange p binStep dX dY := by
      intro r hr
      obtain ⟨p, _, rfl⟩ := List.mem_map.mp (List.mem_filter.mp hr).1
      exact ⟨p, rfl⟩
    have hpos := (allDists_spec hrs hd₀).2
    have hmem : d₀.liquidity ∈
        (((allDists ((ps.map
            (fun p => calculatePositionPriceRange p binStep dX dY)).filter
            (fun r => 0 < r.totalLiquidity))).filter
          (fun d => d.binId == k)).map (fun d => d.liquidity)) :=
      List.mem_map.mpr ⟨d₀,
        List.mem_filter.mpr ⟨hd₀, by simpa using hbin⟩, rfl⟩
    have hle := List.le_sum_of_mem hmem
    unfold totalFor
    omega
  unfold analyzeStats
  dsimp only
  rw [List.filter_eq_self.mpr (fun a ha => by simpa using hall a ha)]

end Poolboyz
